import Mathlib

/-!
Verification of the fixed-income dashboard aggregation pipeline (`app.py`).

The embedding models `process_data` and the column-rename step of the
pipeline.  A pandas DataFrame row is a `Record` (six string cells, renamed
positionally to `Security, Weight, Rating, Country, Issuer, SecurityType`).
Numeric cells are modelled as exact rationals (`ℚ`); `pd.to_numeric(...,
errors='coerce')` becomes `toNumeric : String → Option ℚ`, with `none`
standing for `NaN`.  `DataFrame.nlargest` (default `keep='first'`) and
`sort_values` are modelled by Mathlib's stable `List.insertionSort`;
`groupby` enumerates the distinct keys in ascending codepoint order, as
pandas does with `sort=True`, and sums only the present (non-`NaN`) weights,
as `Series.sum` does with `skipna=True`.
-/

/-- Result of the positional rename `df.columns = ['Security', 'Weight',
'Rating', 'Country', 'Issuer', 'SecurityType']` applied to one row: the six
cells of a parsed row, in the fixed field order. -/
structure Record where
  security : String
  weight : String
  rating : String
  country : String
  issuer : String
  securityType : String
deriving DecidableEq

/-- A row after `df['Weight'] = pd.to_numeric(df['Weight'], errors='coerce')`:
the `Weight` cell has been replaced by its numeric value, `none` when the
coercion failed (pandas `NaN`). -/
structure CRecord where
  security : String
  weight : Option ℚ
  rating : String
  country : String
  issuer : String
  securityType : String
deriving DecidableEq

/-- Splits a character list at every occurrence of `c` (the pieces do not
contain `c`); used by the numeric parser for `'.'` and `'e'`. -/
def splitChar (c : Char) : List Char → List (List Char)
  | [] => [[]]
  | x :: xs =>
    if x = c then [] :: splitChar c xs
    else
      match splitChar c xs with
      | [] => [[x]]
      | h :: t => (x :: h) :: t

/-- Removes leading and trailing whitespace, as Python float parsing does. -/
def trimChars (l : List Char) : List Char :=
  ((l.dropWhile Char.isWhitespace).reverse.dropWhile Char.isWhitespace).reverse

/-- Value of a list of decimal digit characters. -/
def digitsToNat (l : List Char) : ℕ :=
  l.foldl (fun a c => 10 * a + (c.toNat - 48)) 0

/-- Parses a nonempty all-digit character list. -/
def parseNatDigits (l : List Char) : Option ℕ :=
  if l.isEmpty then none
  else if l.all Char.isDigit then some (digitsToNat l)
  else none

/-- Parses an unsigned decimal mantissa: digits with at most one `'.'`;
`"5"`, `"5."` and `".5"` are accepted, as by Python float parsing. -/
def parseUnsignedMantissa (l : List Char) : Option ℚ :=
  match splitChar '.' l with
  | [w] => (parseNatDigits w).map (fun n => (n : ℚ))
  | [w, f] =>
    if w.isEmpty then
      (parseNatDigits f).map (fun n => (n : ℚ) / (10 : ℚ) ^ f.length)
    else if f.isEmpty then
      (parseNatDigits w).map (fun n => (n : ℚ))
    else do
      let wn ← parseNatDigits w
      let fn ← parseNatDigits f
      pure ((wn : ℚ) + (fn : ℚ) / (10 : ℚ) ^ f.length)
  | _ => none

/-- Parses a mantissa with an optional leading sign. -/
def parseSignedMantissa : List Char → Option ℚ
  | '-' :: rest => (parseUnsignedMantissa rest).map (fun q => -q)
  | '+' :: rest => parseUnsignedMantissa rest
  | rest => parseUnsignedMantissa rest

/-- Parses an optionally signed decimal integer (for exponents). -/
def parseSignedInt : List Char → Option ℤ
  | '-' :: rest => (parseNatDigits rest).map (fun n => -(n : ℤ))
  | '+' :: rest => (parseNatDigits rest).map (fun n => (n : ℤ))
  | rest => (parseNatDigits rest).map (fun n => (n : ℤ))

/-- Model of `pd.to_numeric(x, errors='coerce')` on a string cell: trims
whitespace, accepts an optionally signed decimal literal with an optional
`e`/`E` exponent, and returns `none` (pandas `NaN`) on anything else. -/
def toNumeric (s : String) : Option ℚ :=
  let l := (trimChars s.toList).map (fun c => if c = 'E' then 'e' else c)
  match splitChar 'e' l with
  | [m] => parseSignedMantissa m
  | [m, ex] => do
    let mv ← parseSignedMantissa m
    let ev ← parseSignedInt ex
    pure (mv * (10 : ℚ) ^ ev)
  | _ => none

/-- Model of `df.columns = ['Security', 'Weight', 'Rating', 'Country',
'Issuer', 'SecurityType']` on a frame with `ncols` columns: pandas raises
`ValueError: Length mismatch` unless the frame has exactly six columns;
on success each data row is read positionally into a `Record`. -/
def renameColumns (ncols : ℕ) (rows : List (List String)) :
    Except String (List Record) :=
  if ncols = 6 then
    .ok (rows.map (fun r =>
      { security := r.getD 0 "", weight := r.getD 1 "",
        rating := r.getD 2 "", country := r.getD 3 "",
        issuer := r.getD 4 "", securityType := r.getD 5 "" }))
  else
    .error "Length mismatch: expected axis to have 6 elements"

/-- Returns `true` on `.ok`, `false` on `.error`. -/
def parseOk {ε α : Type} : Except ε α → Bool
  | .ok _ => true
  | .error _ => false

/-- Model of `pd.read_excel(..., skiprows=6)` followed by the rename in
`process_data`: the first six sheet rows are discarded, the next row is
consumed as the header (fixing the column count), and the remaining rows
are data. -/
def parseTable (raw : List (List String)) : Except String (List Record) :=
  match raw.drop 6 with
  | [] => .error "no rows after skipping"
  | header :: dataRows => renameColumns header.length dataRows

/-- Model of `df = df[df['SecurityType'] == 'Corporate Bonds']`. -/
def filterCorporate (t : List Record) : List Record :=
  t.filter (fun r => r.securityType == "Corporate Bonds")

/-- Model of `df['Weight'] = pd.to_numeric(df['Weight'], errors='coerce')`:
every record survives, with its `Weight` cell replaced by the coercion
result. -/
def coerceWeights (t : List Record) : List CRecord :=
  t.map (fun r =>
    { security := r.security, weight := toNumeric r.weight,
      rating := r.rating, country := r.country,
      issuer := r.issuer, securityType := r.securityType })

/-- The rows whose `Weight` is present (not `NaN`), tagged with their
positional index starting at `n`: these are the rows `DataFrame.nlargest`
ranks (it drops `NaN` rows of the sort column). -/
def presentRowsFrom : ℕ → List CRecord → List (ℕ × ℚ × CRecord)
  | _, [] => []
  | n, r :: t =>
    match r.weight with
    | some w => (n, w, r) :: presentRowsFrom (n + 1) t
    | none => presentRowsFrom (n + 1) t

/-- The present-weight rows of the table, tagged with their row positions. -/
def presentRows (t : List CRecord) : List (ℕ × ℚ × CRecord) :=
  presentRowsFrom 0 t

/-- Ranking order of `df.nlargest(10, 'Weight')` with the default
`keep='first'`: greater weight first, ties broken by original row order. -/
def holdLE (a b : ℕ × ℚ × CRecord) : Prop :=
  b.2.1 < a.2.1 ∨ (a.2.1 = b.2.1 ∧ a.1 ≤ b.1)

instance : DecidableRel holdLE := fun a b => by
  unfold holdLE; infer_instance

instance : IsTotal (ℕ × ℚ × CRecord) holdLE where
  total a b := by
    rcases lt_trichotomy a.2.1 b.2.1 with h | h | h
    · exact Or.inr (Or.inl h)
    · rcases Nat.le_total a.1 b.1 with h2 | h2
      · exact Or.inl (Or.inr ⟨h, h2⟩)
      · exact Or.inr (Or.inr ⟨h.symm, h2⟩)
    · exact Or.inl (Or.inl h)

instance : IsTrans (ℕ × ℚ × CRecord) holdLE where
  trans a b c hab hbc := by
    rcases hab with hab | ⟨hab, hab2⟩
    · rcases hbc with hbc | ⟨hbc, _⟩
      · exact Or.inl (hbc.trans hab)
      · exact Or.inl (hbc ▸ hab)
    · rcases hbc with hbc | ⟨hbc, hbc2⟩
      · exact Or.inl (hab ▸ hbc)
      · exact Or.inr ⟨hab.trans hbc, hab2.trans hbc2⟩

/-- All present-weight rows of the table sorted by the `nlargest` order:
descending weight, ties in original row order. -/
def rankedRows (t : List CRecord) : List (ℕ × ℚ × CRecord) :=
  List.insertionSort holdLE (presentRows t)

/-- The rows selected by `df.nlargest(10, 'Weight')`, with their positions
and weights. -/
def topHoldingsRows (t : List CRecord) : List (ℕ × ℚ × CRecord) :=
  (rankedRows t).take 10

/-- Model of `top_holdings = df.nlargest(10, 'Weight')[['Security',
'Weight']]`: the (Security, Weight) pairs handed to the presenter. -/
def topHoldings (t : List CRecord) : List (String × ℚ) :=
  (topHoldingsRows t).map (fun p => (p.2.2.security, p.2.1))

/-- Codepoint-lexicographic order on character lists, the order Python uses
to compare strings (pandas sorts group keys with it). -/
def lexLe : List Char → List Char → Bool
  | [], _ => true
  | _ :: _, [] => false
  | a :: as, b :: bs =>
    if a.toNat < b.toNat then true
    else if b.toNat < a.toNat then false
    else lexLe as bs

/-- Ascending string order used for pandas group keys. -/
def strLe (a b : String) : Prop := lexLe a.toList b.toList = true

instance : DecidableRel strLe := fun a b => by
  unfold strLe; infer_instance

/-- The distinct values of `key` over the table, in ascending order: the
group keys produced by `df.groupby(key)` with the default `sort=True`. -/
def groupKeys (key : CRecord → String) (t : List CRecord) : List String :=
  List.insertionSort strLe (t.map key).dedup

/-- Sum of the present weights of the records of group `k`: the value
`df.groupby(key)['Weight'].sum()` assigns to key `k` (with the default
`skipna=True`, absent weights contribute nothing; an all-absent group
sums to 0). -/
def groupWeightSum (key : CRecord → String) (k : String)
    (t : List CRecord) : ℚ :=
  ((t.filter (fun r => key r == k)).filterMap (fun r => r.weight)).sum

/-- Model of `df.groupby(key)['Weight'].sum()`: one (key, sum) pair per
distinct key, keys ascending. -/
def groupSums (key : CRecord → String) (t : List CRecord) :
    List (String × ℚ) :=
  (groupKeys key t).map (fun k => (k, groupWeightSum key k t))

/-- Order of `sort_values(ascending=False)` on a (key, value) series. -/
def valDesc (a b : String × ℚ) : Prop := b.2 ≤ a.2

/-- Order of `sort_values(ascending=True)` on a (key, value) series. -/
def valAsc (a b : String × ℚ) : Prop := a.2 ≤ b.2

instance : DecidableRel valDesc := fun a b => by
  unfold valDesc; infer_instance

instance : DecidableRel valAsc := fun a b => by
  unfold valAsc; infer_instance

instance : IsTotal (String × ℚ) valDesc where
  total a b := le_total b.2 a.2

instance : IsTrans (String × ℚ) valDesc where
  trans _ _ _ hab hbc := le_trans hbc hab

instance : IsTotal (String × ℚ) valAsc where
  total a b := le_total a.2 b.2

instance : IsTrans (String × ℚ) valAsc where
  trans _ _ _ hab hbc := le_trans hab hbc

/-- Model of `country_exposure = df.groupby('Country')['Weight'].sum()
.sort_values(ascending=False)`. -/
def countryExposure (t : List CRecord) : List (String × ℚ) :=
  List.insertionSort valDesc (groupSums (fun r => r.country) t)

/-- Model of `rating_exposure = df.groupby('Rating')['Weight'].sum()
.sort_values(ascending=False)`. -/
def ratingExposure (t : List CRecord) : List (String × ℚ) :=
  List.insertionSort valDesc (groupSums (fun r => r.rating) t)

/-- The per-issuer sums sorted descending (the ranking `Series.nlargest`
applies, with `keep='first'` ties in series order). -/
def issuersDesc (t : List CRecord) : List (String × ℚ) :=
  List.insertionSort valDesc (groupSums (fun r => r.issuer) t)

/-- Model of `df.groupby('Issuer')['Weight'].sum().nlargest(10)`: the 10
largest per-issuer sums, still in descending order. -/
def topIssuersCut (t : List CRecord) : List (String × ℚ) :=
  (issuersDesc t).take 10

/-- Model of `top_issuers = df.groupby('Issuer')['Weight'].sum()
.nlargest(10).sort_values(ascending=True)`: the kept 10 reordered
ascending. -/
def topIssuers (t : List CRecord) : List (String × ℚ) :=
  List.insertionSort valAsc (topIssuersCut t)

/-- Model of `process_data` on a parsed table: filter to corporate bonds,
coerce weights, and compute the four views, in the order the function
returns them. -/
def process_data (t : List Record) :
    List (String × ℚ) × List (String × ℚ) × List (String × ℚ) ×
      List (String × ℚ) :=
  let f := coerceWeights (filterCorporate t)
  (topHoldings f, countryExposure f, ratingExposure f, topIssuers f)

/-! ### Structural lemmas about the ranked present-weight rows -/

/-- There are as many present-weight rows as records whose coerced weight
is present. -/
theorem presentRowsFrom_length (n : ℕ) (t : List CRecord) :
    (presentRowsFrom n t).length
      = (t.filter (fun r => r.weight.isSome)).length := by
  induction t generalizing n with
  | nil => rfl
  | cons r t ih =>
    cases h : r.weight with
    | some w => simp [presentRowsFrom, h, List.filter_cons, ih]
    | none => simp [presentRowsFrom, h, List.filter_cons, ih]

/-- Indices of present-weight rows start at the running counter. -/
theorem presentRowsFrom_le (n : ℕ) (t : List CRecord) :
    ∀ p ∈ presentRowsFrom n t, n ≤ p.1 := by
  induction t generalizing n with
  | nil => intro p hp; simp [presentRowsFrom] at hp
  | cons r t ih =>
    intro p hp
    cases h : r.weight with
    | some w =>
      simp only [presentRowsFrom, h] at hp
      rcases List.mem_cons.mp hp with rfl | hp
      · exact le_refl n
      · exact le_trans (Nat.le_succ n) (ih (n + 1) p hp)
    | none =>
      simp only [presentRowsFrom, h] at hp
      exact le_trans (Nat.le_succ n) (ih (n + 1) p hp)

/-- The indices of the present-weight rows are strictly increasing. -/
theorem presentRowsFrom_pairwise (n : ℕ) (t : List CRecord) :
    (presentRowsFrom n t).Pairwise (fun a b => a.1 < b.1) := by
  induction t generalizing n with
  | nil => simp [presentRowsFrom]
  | cons r t ih =>
    cases h : r.weight with
    | some w =>
      simp only [presentRowsFrom, h]
      refine List.pairwise_cons.mpr ⟨?_, ih (n + 1)⟩
      intro p hp
      exact Nat.lt_of_lt_of_le (Nat.lt_succ_self n)
        (presentRowsFrom_le (n + 1) t p hp)
    | none =>
      simp only [presentRowsFrom, h]
      exact ih (n + 1)

/-- Every present-weight row carries exactly its record's weight. -/
theorem presentRowsFrom_weight (n : ℕ) (t : List CRecord) :
    ∀ p ∈ presentRowsFrom n t, p.2.2.weight = some p.2.1 := by
  induction t generalizing n with
  | nil => intro p hp; simp [presentRowsFrom] at hp
  | cons r t ih =>
    intro p hp
    cases h : r.weight with
    | some w =>
      simp only [presentRowsFrom, h] at hp
      rcases List.mem_cons.mp hp with rfl | hp
      · exact h
      · exact ih (n + 1) p hp
    | none =>
      simp only [presentRowsFrom, h] at hp
      exact ih (n + 1) p hp

/-- A present-weight row points back at its record in the table. -/
theorem presentRowsFrom_get (n : ℕ) (t : List CRecord) :
    ∀ p ∈ presentRowsFrom n t, t[p.1 - n]? = some p.2.2 := by
  induction t generalizing n with
  | nil => intro p hp; simp [presentRowsFrom] at hp
  | cons r t ih =>
    intro p hp
    cases h : r.weight with
    | some w =>
      simp only [presentRowsFrom, h] at hp
      rcases List.mem_cons.mp hp with rfl | hp
      · simp
      · have h1 := presentRowsFrom_le (n + 1) t p hp
        have h2 := ih (n + 1) p hp
        have h3 : p.1 - n = (p.1 - (n + 1)) + 1 := by omega
        rw [h3]
        simpa using h2
    | none =>
      simp only [presentRowsFrom, h] at hp
      have h1 := presentRowsFrom_le (n + 1) t p hp
      have h2 := ih (n + 1) p hp
      have h3 : p.1 - n = (p.1 - (n + 1)) + 1 := by omega
      rw [h3]
      simpa using h2

/-- The ranked rows are a permutation of the present-weight rows. -/
theorem rankedRows_perm (t : List CRecord) :
    (rankedRows t).Perm (presentRows t) :=
  List.perm_insertionSort holdLE (presentRows t)

/-- The ranked rows are sorted by the `nlargest` order. -/
theorem rankedRows_sorted (t : List CRecord) :
    (rankedRows t).Pairwise holdLE :=
  List.sorted_insertionSort holdLE (presentRows t)

/-- No row index repeats among the present-weight rows. -/
theorem presentRows_nodup_fst (t : List CRecord) :
    ((presentRows t).map Prod.fst).Nodup := by
  have h : ((presentRows t).map Prod.fst).Pairwise (· < ·) :=
    List.pairwise_map.mpr (presentRowsFrom_pairwise 0 t)
  exact h.imp Nat.ne_of_lt

/-- No row index repeats among the ranked rows. -/
theorem rankedRows_nodup_fst (t : List CRecord) :
    ((rankedRows t).map Prod.fst).Nodup :=
  ((rankedRows_perm t).map Prod.fst).nodup_iff.mpr (presentRows_nodup_fst t)

/-- In a sorted list, everything kept by `take` relates to everything
discarded by `drop`. -/
theorem pairwise_take_drop {α : Type} {R : α → α → Prop} {l : List α}
    (h : l.Pairwise R) (n : ℕ) :
    ∀ p ∈ l.take n, ∀ q ∈ l.drop n, R p q := by
  rw [← List.take_append_drop n l] at h
  exact (List.pairwise_append.mp h).2.2

/-! ### Structural lemmas about the grouped views -/

/-- The group keys are exactly the key values occurring in the table. -/
theorem groupKeys_mem (key : CRecord → String) (t : List CRecord) (k : String) :
    k ∈ groupKeys key t ↔ k ∈ t.map key := by
  rw [groupKeys, (List.perm_insertionSort strLe _).mem_iff, List.mem_dedup]

/-- No group key repeats. -/
theorem groupKeys_nodup (key : CRecord → String) (t : List CRecord) :
    (groupKeys key t).Nodup :=
  (List.perm_insertionSort strLe _).nodup_iff.mpr (List.nodup_dedup _)

/-- The keys of the grouped sums are the group keys. -/
theorem groupSums_map_fst (key : CRecord → String) (t : List CRecord) :
    (groupSums key t).map Prod.fst = groupKeys key t := by
  rw [groupSums, List.map_map]
  have hfun : (Prod.fst ∘ fun k => (k, groupWeightSum key k t))
      = fun k : String => k := rfl
  rw [hfun]
  exact List.map_id' _

/-- Membership in the grouped sums: one entry per occurring key, holding
that group's weight sum. -/
theorem groupSums_mem (key : CRecord → String) (t : List CRecord)
    (k : String) (s : ℚ) :
    (k, s) ∈ groupSums key t ↔
      (k ∈ t.map key ∧ s = groupWeightSum key k t) := by
  rw [groupSums, List.mem_map]
  constructor
  · rintro ⟨a, ha, heq⟩
    injection heq with h1 h2
    subst h1
    subst h2
    exact ⟨(groupKeys_mem key t a).mp ha, rfl⟩
  · rintro ⟨hk, rfl⟩
    exact ⟨k, (groupKeys_mem key t k).mpr hk, rfl⟩

/-- A group all of whose records have absent weight sums to zero. -/
theorem groupWeightSum_eq_zero (key : CRecord → String) (k : String)
    (t : List CRecord) (h : ∀ r ∈ t, key r = k → r.weight = none) :
    groupWeightSum key k t = 0 := by
  rw [groupWeightSum]
  have hnil : (t.filter (fun r => key r == k)).filterMap
      (fun r => r.weight) = [] := by
    rw [List.filterMap_eq_nil_iff]
    intro r hr
    have hm := List.mem_filter.mp hr
    exact h r hm.1 (by simpa using hm.2)
  rw [hnil]
  rfl

/-- Splitting a weight sum along a boolean predicate on records. -/
theorem sum_filterMap_split {α : Type} (w : α → Option ℚ) (p : α → Bool)
    (l : List α) :
    ((l.filter p).filterMap w).sum
        + ((l.filter (fun x => !p x)).filterMap w).sum
      = (l.filterMap w).sum := by
  induction l with
  | nil => simp
  | cons x l ih =>
    cases hp : p x <;> cases hw : w x <;>
      simp only [List.filter_cons, hp, Bool.not_true, Bool.not_false,
        List.filterMap_cons, hw, if_true, if_false, List.sum_cons,
        Bool.false_eq_true, Bool.true_eq_false, ite_false, ite_true] <;>
      rw [← ih] <;> ring

/-- Summing the group sums over any duplicate-free list of keys covering
the table gives the total present weight. -/
theorem sum_groupWeightSum_of_cover (key : CRecord → String) :
    ∀ (K : List String) (t : List CRecord), K.Nodup →
      (∀ r ∈ t, key r ∈ K) →
      (K.map (fun k => groupWeightSum key k t)).sum
        = (t.filterMap (fun r => r.weight)).sum := by
  intro K
  induction K with
  | nil =>
    intro t _ hcov
    have ht : t = [] := by
      cases t with
      | nil => rfl
      | cons r t =>
        exact absurd (hcov r (List.mem_cons_self r t)) (List.not_mem_nil _)
    subst ht
    simp
  | cons k K ih =>
    intro t hnd hcov
    have hnd' := List.nodup_cons.mp hnd
    have hmap : ∀ k' ∈ K, groupWeightSum key k' t
        = groupWeightSum key k' (t.filter (fun r => !(key r == k))) := by
      intro k' hk'
      have hkk : k' ≠ k := fun h => hnd'.1 (h ▸ hk')
      rw [groupWeightSum, groupWeightSum, List.filter_filter]
      have hcongr : ∀ r ∈ t,
          (key r == k') = ((key r == k') && !(key r == k)) := by
        intro r _
        cases hb : (key r == k') with
        | false => simp
        | true =>
          have : key r = k' := by simpa using hb
          simp [this, hkk]
      rw [List.filter_congr hcongr]
    have hcov' : ∀ r ∈ t.filter (fun r => !(key r == k)), key r ∈ K := by
      intro r hr
      have hm := List.mem_filter.mp hr
      have hne : key r ≠ k := by simpa using hm.2
      rcases List.mem_cons.mp (hcov r hm.1) with h | h
      · exact absurd h hne
      · exact h
    have hih := ih (t.filter (fun r => !(key r == k))) hnd'.2 hcov'
    rw [List.map_cons, List.sum_cons,
      List.map_congr_left hmap, hih]
    have hsplit := sum_filterMap_split (fun r => r.weight)
      (fun r => key r == k) t
    rw [← hsplit]
    rfl

/-- The values of a descending-sorted grouped view sum to the total present
weight of the table. -/
theorem exposure_values_sum (key : CRecord → String) (t : List CRecord) :
    ((List.insertionSort valDesc (groupSums key t)).map Prod.snd).sum
      = (t.filterMap (fun r => r.weight)).sum := by
  rw [((List.perm_insertionSort valDesc
    (groupSums key t)).map Prod.snd).sum_eq]
  rw [groupSums, List.map_map]
  have hfun : (Prod.snd ∘ fun k => (k, groupWeightSum key k t))
      = fun k => groupWeightSum key k t := rfl
  rw [hfun, groupKeys]
  rw [((List.perm_insertionSort strLe (t.map key).dedup).map
    (fun k => groupWeightSum key k t)).sum_eq]
  exact sum_groupWeightSum_of_cover key _ t (List.nodup_dedup _)
    (fun r hr => List.mem_dedup.mpr (List.mem_map_of_mem key hr))

/-- Properties shared by both descending-sorted grouped views: keys are
exactly the occurring key values, without repetition, each paired with its
group's present-weight sum (0 for an all-absent group). -/
theorem exposureView_spec (key : CRecord → String) (t : List CRecord) :
    ((List.insertionSort valDesc (groupSums key t)).map Prod.fst).Nodup
  ∧ (∀ k, k ∈ (List.insertionSort valDesc (groupSums key t)).map Prod.fst
      ↔ k ∈ t.map key)
  ∧ (∀ k s, (k, s) ∈ List.insertionSort valDesc (groupSums key t)
      ↔ (k ∈ t.map key ∧ s = groupWeightSum key k t))
  ∧ (∀ k ∈ t.map key, (∀ r ∈ t, key r = k → r.weight = none) →
      (k, 0) ∈ List.insertionSort valDesc (groupSums key t)) := by
  have hperm := List.perm_insertionSort valDesc (groupSums key t)
  refine ⟨?_, ?_, ?_, ?_⟩
  · refine (hperm.map Prod.fst).nodup_iff.mpr ?_
    rw [groupSums_map_fst]
    exact groupKeys_nodup key t
  · intro k
    rw [(hperm.map Prod.fst).mem_iff, groupSums_map_fst, groupKeys_mem]
  · intro k s
    rw [hperm.mem_iff, groupSums_mem]
  · intro k hk hz
    rw [hperm.mem_iff, groupSums_mem]
    exact ⟨hk, (groupWeightSum_eq_zero key k t hz).symm⟩

/-! ### Claim theorems -/

/-- C2: for every parsed Table, the filter output is an order-preserving
subsequence of the input containing exactly the records whose
`SecurityType` equals the literal `"Corporate Bonds"` (case-sensitive exact
match), with multiplicities preserved. -/
theorem filterCorporate_spec (t : List Record) :
    (filterCorporate t).Sublist t
  ∧ (∀ r, r ∈ filterCorporate t ↔
      (r ∈ t ∧ r.securityType = "Corporate Bonds"))
  ∧ (∀ r, r.securityType = "Corporate Bonds" →
      (filterCorporate t).count r = t.count r) := by
  refine ⟨List.filter_sublist t, ?_, ?_⟩
  · intro r
    rw [filterCorporate, List.mem_filter]
    simp
  · intro r hr
    rw [filterCorporate]
    exact List.count_filter (by simpa using hr)

/-- C3: `TopHoldings` has length `min 10 (number of present-weight
records)`; it is sorted descending by weight with ties broken by original
row order; its output weights are descending; it contains only
present-weight rows; every selected weight bounds every excluded present
weight from above; and when at most 10 rows qualify, all of them are
selected. -/
theorem topHoldings_spec (t : List CRecord) :
    (topHoldings t).length
        = min 10 ((t.filter (fun r => r.weight.isSome)).length)
  ∧ (topHoldingsRows t).Pairwise
      (fun a b => b.2.1 < a.2.1 ∨ (a.2.1 = b.2.1 ∧ a.1 < b.1))
  ∧ (topHoldings t).Pairwise (fun a b => b.2 ≤ a.2)
  ∧ (∀ p ∈ topHoldingsRows t, p.2.2.weight = some p.2.1)
  ∧ (∀ q ∈ presentRows t, q ∉ topHoldingsRows t →
      ∀ p ∈ topHoldingsRows t, q.2.1 ≤ p.2.1)
  ∧ ((t.filter (fun r => r.weight.isSome)).length ≤ 10 →
      ∀ q ∈ presentRows t, q ∈ topHoldingsRows t) := by
  have hlenr : (rankedRows t).length
      = (t.filter (fun r => r.weight.isSome)).length := by
    rw [rankedRows, List.length_insertionSort]
    exact presentRowsFrom_length 0 t
  have hne : (rankedRows t).Pairwise (fun a b => a.1 ≠ b.1) :=
    List.pairwise_map.mp (rankedRows_nodup_fst t)
  have hstrict : (rankedRows t).Pairwise
      (fun a b => b.2.1 < a.2.1 ∨ (a.2.1 = b.2.1 ∧ a.1 < b.1)) := by
    refine ((rankedRows_sorted t).and hne).imp ?_
    rintro a b ⟨hle | ⟨heq, hle⟩, hne1⟩
    · exact Or.inl hle
    · exact Or.inr ⟨heq, lt_of_le_of_ne hle hne1⟩
  have hstrictTake := hstrict.sublist (List.take_sublist 10 (rankedRows t))
  have hmemTake : ∀ p ∈ topHoldingsRows t, p ∈ presentRows t := by
    intro p hp
    exact (rankedRows_perm t).mem_iff.mp
      ((List.take_sublist 10 (rankedRows t)).subset hp)
  refine ⟨?_, hstrictTake, ?_, ?_, ?_, ?_⟩
  · rw [topHoldings, List.length_map, topHoldingsRows, List.length_take,
      hlenr]
  · rw [topHoldings]
    refine List.pairwise_map.mpr (hstrictTake.imp ?_)
    rintro a b (hlt | ⟨heq, _⟩)
    · exact le_of_lt hlt
    · exact le_of_eq heq.symm
  · intro p hp
    exact presentRowsFrom_weight 0 t p (hmemTake p hp)
  · intro q hq hnot p hp
    have hqr : q ∈ rankedRows t := (rankedRows_perm t).mem_iff.mpr hq
    rw [← List.take_append_drop 10 (rankedRows t)] at hqr
    have hqd : q ∈ (rankedRows t).drop 10 := by
      rcases List.mem_append.mp hqr with h | h
      · exact absurd h hnot
      · exact h
    have hle := pairwise_take_drop (rankedRows_sorted t) 10 p hp q hqd
    rcases hle with hlt | ⟨heq, _⟩
    · exact le_of_lt hlt
    · exact le_of_eq heq.symm
  · intro hlen q hq
    have : (rankedRows t).length ≤ 10 := by rw [hlenr]; exact hlen
    rw [topHoldingsRows, List.take_of_length_le this]
    exact (rankedRows_perm t).mem_iff.mpr hq

/-- C4: `TopIssuers` has at most 10 entries, its values are sorted
ascending, it is a permutation of the top-10 cut taken from the
descending-sorted per-issuer sums (so the ascending reordering never
changes membership), and every discarded per-issuer sum is bounded by
every kept one. -/
theorem topIssuers_spec (t : List CRecord) :
    (topIssuers t).length ≤ 10
  ∧ (topIssuers t).Pairwise (fun a b => a.2 ≤ b.2)
  ∧ (topIssuers t).Perm (topIssuersCut t)
  ∧ (∀ g ∈ groupSums (fun r => r.issuer) t, g ∉ topIssuers t →
      ∀ p ∈ topIssuers t, g.2 ≤ p.2) := by
  have hpermAsc : (topIssuers t).Perm (topIssuersCut t) :=
    List.perm_insertionSort valAsc (topIssuersCut t)
  have hpermDesc : (issuersDesc t).Perm (groupSums (fun r => r.issuer) t) :=
    List.perm_insertionSort valDesc (groupSums (fun r => r.issuer) t)
  refine ⟨?_, ?_, hpermAsc, ?_⟩
  · rw [hpermAsc.length_eq, topIssuersCut, List.length_take]
    exact min_le_left 10 _
  · exact List.sorted_insertionSort valAsc (topIssuersCut t)
  · intro g hg hnot p hp
    have hgd : g ∈ issuersDesc t := hpermDesc.mem_iff.mpr hg
    have hnotc : g ∉ topIssuersCut t := fun h =>
      hnot (hpermAsc.mem_iff.mpr h)
    rw [← List.take_append_drop 10 (issuersDesc t)] at hgd
    have hgdrop : g ∈ (issuersDesc t).drop 10 := by
      rcases List.mem_append.mp hgd with h | h
      · exact absurd h hnotc
      · exact h
    have hpc : p ∈ topIssuersCut t := hpermAsc.mem_iff.mp hp
    exact pairwise_take_drop
      (List.sorted_insertionSort valDesc (groupSums (fun r => r.issuer) t))
      10 p hpc g hgdrop

/-- C5: the values of `CountryExposure` and of `RatingExposure` each sum to
the total present weight of the filtered table, hence to each other: both
views partition the same record set. -/
theorem exposure_totals (t : List CRecord) :
    ((countryExposure t).map Prod.snd).sum
        = (t.filterMap (fun r => r.weight)).sum
  ∧ ((ratingExposure t).map Prod.snd).sum
        = (t.filterMap (fun r => r.weight)).sum
  ∧ ((countryExposure t).map Prod.snd).sum
        = ((ratingExposure t).map Prod.snd).sum := by
  have hc : ((countryExposure t).map Prod.snd).sum
      = (t.filterMap (fun r => r.weight)).sum :=
    exposure_values_sum (fun r => r.country) t
  have hr : ((ratingExposure t).map Prod.snd).sum
      = (t.filterMap (fun r => r.weight)).sum :=
    exposure_values_sum (fun r => r.rating) t
  exact ⟨hc, hr, hc.trans hr.symm⟩

/-- C10: the key set of `CountryExposure` is exactly the set of distinct
Country values of the filtered table, and likewise for `RatingExposure`
and Rating; each key appears exactly once, paired with its group's
present-weight sum, and a key all of whose records have absent weight
appears with sum 0. -/
theorem exposure_keys_spec (t : List CRecord) :
    ((countryExposure t).map Prod.fst).Nodup
  ∧ (∀ k, k ∈ (countryExposure t).map Prod.fst
      ↔ k ∈ t.map (fun r => r.country))
  ∧ (∀ k s, (k, s) ∈ countryExposure t ↔
      (k ∈ t.map (fun r => r.country)
        ∧ s = groupWeightSum (fun r => r.country) k t))
  ∧ (∀ k ∈ t.map (fun r => r.country),
      (∀ r ∈ t, r.country = k → r.weight = none) →
        (k, 0) ∈ countryExposure t)
  ∧ ((ratingExposure t).map Prod.fst).Nodup
  ∧ (∀ k, k ∈ (ratingExposure t).map Prod.fst
      ↔ k ∈ t.map (fun r => r.rating))
  ∧ (∀ k s, (k, s) ∈ ratingExposure t ↔
      (k ∈ t.map (fun r => r.rating)
        ∧ s = groupWeightSum (fun r => r.rating) k t))
  ∧ (∀ k ∈ t.map (fun r => r.rating),
      (∀ r ∈ t, r.rating = k → r.weight = none) →
        (k, 0) ∈ ratingExposure t) := by
  have hc := exposureView_spec (fun r => r.country) t
  have hr := exposureView_spec (fun r => r.rating) t
  exact ⟨hc.1, hc.2.1, hc.2.2.1, hc.2.2.2, hr.1, hr.2.1, hr.2.2.1, hr.2.2.2⟩

/-- Removing a record whose weight is absent changes no filtered weight
list: the record contributes nothing to any sum. -/
theorem filterMap_filter_eraseIdx (p : CRecord → Bool) :
    ∀ (l : List CRecord) (i : ℕ) (x : CRecord), l[i]? = some x →
      x.weight = none →
      ((l.eraseIdx i).filter p).filterMap (fun r => r.weight)
        = (l.filter p).filterMap (fun r => r.weight) := by
  intro l
  induction l with
  | nil => intro i x hget; simp at hget
  | cons a l ih =>
    intro i x hget hw
    cases i with
    | zero =>
      simp only [List.getElem?_cons_zero, Option.some.injEq] at hget
      subst hget
      cases hp : p a <;>
        simp [List.eraseIdx, List.filter_cons, hp, List.filterMap_cons, hw]
    | succ j =>
      simp only [List.getElem?_cons_succ] at hget
      cases hp : p a <;>
        simp [List.eraseIdx, List.filter_cons, hp, List.filterMap_cons,
          ih j x hget hw]

/-- C7: a record whose Weight text fails numeric coercion is neither
dropped nor fatal: it survives coercion with all other fields intact and
its weight absent, it is never among the rows ranked by `nlargest`, and
removing it leaves every group's weight sum unchanged. -/
theorem coercion_failure_spec (t : List Record) (i : ℕ) (r : Record)
    (hget : t[i]? = some r) (hfail : toNumeric r.weight = none) :
    (coerceWeights t).length = t.length
  ∧ (coerceWeights t)[i]?
      = some ⟨r.security, none, r.rating, r.country, r.issuer,
          r.securityType⟩
  ∧ (∀ p ∈ presentRows (coerceWeights t), p.1 ≠ i)
  ∧ (∀ (key : CRecord → String) (k : String),
      groupWeightSum key k (coerceWeights t)
        = groupWeightSum key k ((coerceWeights t).eraseIdx i)) := by
  have hcget : (coerceWeights t)[i]?
      = some ⟨r.security, none, r.rating, r.country, r.issuer,
          r.securityType⟩ := by
    rw [coerceWeights, List.getElem?_map, hget]
    simp [hfail]
  refine ⟨List.length_map t _, hcget, ?_, ?_⟩
  · intro p hp hpi
    have hw := presentRowsFrom_weight 0 (coerceWeights t) p hp
    have hg := presentRowsFrom_get 0 (coerceWeights t) p hp
    rw [Nat.sub_zero, hpi, hcget] at hg
    have heq : (⟨r.security, none, r.rating, r.country, r.issuer,
        r.securityType⟩ : CRecord) = p.2.2 := Option.some.inj hg
    rw [← heq] at hw
    simp at hw
  · intro key k
    rw [groupWeightSum, groupWeightSum,
      filterMap_filter_eraseIdx (fun s => key s == k) (coerceWeights t) i _
        hcget rfl]

/-- C8: when filtering leaves no Corporate Bonds record, all four views are
empty sequences and the pipeline still returns normally. -/
theorem empty_filter_spec (t : List Record) (h : filterCorporate t = []) :
    process_data t = ([], [], [], []) := by
  rw [process_data, h]
  rfl

/-- C9: the aggregation is deterministic: equal parsed tables produce
identical, order-exact result sets for all four views. -/
theorem process_data_deterministic (t1 t2 : List Record) (h : t1 = t2) :
    process_data t1 = process_data t2 := by
  rw [h]

/-! ### The three-row scenario -/

/-- Scenario data row `("A", "5", "AAA", "US", "X", "Corporate Bonds")`. -/
def rowA : Record := ⟨"A", "5", "AAA", "US", "X", "Corporate Bonds"⟩

/-- Scenario data row `("B", "bad", "BBB", "DE", "Y", "Corporate Bonds")`. -/
def rowB : Record := ⟨"B", "bad", "BBB", "DE", "Y", "Corporate Bonds"⟩

/-- Scenario data row `("C", "10", "AAA", "US", "Z", "Government Bonds")`. -/
def rowC : Record := ⟨"C", "10", "AAA", "US", "Z", "Government Bonds"⟩

/-- The scenario input table of the specification. -/
def scenarioRows : List Record := [rowA, rowB, rowC]

/-- The scenario table after filtering and weight coercion. -/
def scenF : List CRecord := coerceWeights (filterCorporate scenarioRows)

/-- The scenario's country exposure keeps a `DE` group with sum 0 produced
by the absent-weight record `B`. -/
theorem scenario_country : countryExposure scenF = [("US", 5), ("DE", 0)] := by
  have h5 : toNumeric "5" = some 5 := by decide
  have hb : toNumeric "bad" = none := by decide
  simp [countryExposure, groupSums, groupKeys, groupWeightSum, scenF,
    coerceWeights, filterCorporate, scenarioRows, rowA, rowB, rowC, h5, hb,
    List.insertionSort, List.orderedInsert, List.dedup, valDesc, strLe,
    lexLe]

/-- The scenario's rating exposure keeps a `BBB` group with sum 0. -/
theorem scenario_rating : ratingExposure scenF = [("AAA", 5), ("BBB", 0)] := by
  have h5 : toNumeric "5" = some 5 := by decide
  have hb : toNumeric "bad" = none := by decide
  simp [ratingExposure, groupSums, groupKeys, groupWeightSum, scenF,
    coerceWeights, filterCorporate, scenarioRows, rowA, rowB, rowC, h5, hb,
    List.insertionSort, List.orderedInsert, List.dedup, valDesc, strLe,
    lexLe]

/-- The scenario's top issuers keep a `Y` group with sum 0, listed first by
the ascending reordering. -/
theorem scenario_issuers : topIssuers scenF = [("Y", 0), ("X", 5)] := by
  have h5 : toNumeric "5" = some 5 := by decide
  have hb : toNumeric "bad" = none := by decide
  simp [topIssuers, topIssuersCut, issuersDesc, groupSums, groupKeys,
    groupWeightSum, scenF, coerceWeights, filterCorporate, scenarioRows,
    rowA, rowB, rowC, h5, hb,
    List.insertionSort, List.orderedInsert, List.dedup, valAsc, valDesc,
    strLe, lexLe]

/-- C1 counterexample: on the scenario input the grouped views are not the
claimed singletons — a `DE` group (sum 0) appears in the country view, a
`BBB` group in the rating view and a `Y` group in the issuer view, because
the absent-weight record `B` still forms groups under `groupby`. -/
theorem scenario_views_counterexample :
    ("DE", (0 : ℚ)) ∈ countryExposure scenF
  ∧ countryExposure scenF ≠ [("US", 5)]
  ∧ ("BBB", (0 : ℚ)) ∈ ratingExposure scenF
  ∧ ratingExposure scenF ≠ [("AAA", 5)]
  ∧ ("Y", (0 : ℚ)) ∈ topIssuers scenF
  ∧ topIssuers scenF ≠ [("X", 5)] := by
  rw [scenario_country, scenario_rating, scenario_issuers]
  refine ⟨by decide, ?_, by decide, ?_, by decide, ?_⟩ <;>
    intro h <;> simpa using congrArg List.length h

/-- C1 (amended): on the scenario input the filtered set is exactly the
records A and B in order, B's weight is absent, `TopHoldings = [("A", 5)]`,
and the grouped views are `CountryExposure = [("US", 5), ("DE", 0)]`,
`RatingExposure = [("AAA", 5), ("BBB", 0)]` and `TopIssuers = [("Y", 0),
("X", 5)]`: record B's groups appear with sum 0 rather than being absent. -/
theorem scenario_views_spec :
    filterCorporate scenarioRows = [rowA, rowB]
  ∧ toNumeric rowB.weight = none
  ∧ scenF = [⟨"A", some 5, "AAA", "US", "X", "Corporate Bonds"⟩,
      ⟨"B", none, "BBB", "DE", "Y", "Corporate Bonds"⟩]
  ∧ topHoldings scenF = [("A", 5)]
  ∧ countryExposure scenF = [("US", 5), ("DE", 0)]
  ∧ ratingExposure scenF = [("AAA", 5), ("BBB", 0)]
  ∧ topIssuers scenF = [("Y", 0), ("X", 5)] := by
  refine ⟨by decide, by decide, by decide, by decide, scenario_country,
    scenario_rating, scenario_issuers⟩

/-! ### Column-count behaviour of the parse step -/

/-- C6 (amended): parsing fails whenever the column count after skipping
differs from six — fewer than six columns fails, and more than six also
fails with the same positional-rename length mismatch; it succeeds exactly
when six columns are present, read positionally. -/
theorem parse_columns_spec (ncols : ℕ) (rows : List (List String))
    (raw : List (List String)) (header : List String)
    (dataRows : List (List String))
    (hdrop : raw.drop 6 = header :: dataRows) :
    (ncols < 6 → parseOk (renameColumns ncols rows) = false)
  ∧ (parseOk (renameColumns ncols rows) = true ↔ ncols = 6)
  ∧ (parseOk (parseTable raw) = true ↔ header.length = 6) := by
  have hiff : ∀ (n : ℕ) (rs : List (List String)),
      parseOk (renameColumns n rs) = true ↔ n = 6 := by
    intro n rs
    rw [renameColumns]
    by_cases h : n = 6
    · simp [h, parseOk]
    · simp [h, parseOk]
  refine ⟨?_, hiff ncols rows, ?_⟩
  · intro hlt
    cases hok : parseOk (renameColumns ncols rows)
    · rfl
    · exact absurd ((hiff ncols rows).mp hok) (by omega)
  · rw [parseTable, hdrop]
    exact hiff header.length dataRows

/-- A raw sheet whose header row (after the six skipped rows) has seven
columns. -/
def rawSeven : List (List String) :=
  [[], [], [], [], [], [],
   ["h1", "h2", "h3", "h4", "h5", "h6", "h7"],
   ["A", "5", "AAA", "US", "X", "Corporate Bonds", "extra"]]

/-- C6 counterexample: a well-formed seven-column table — more than six
columns — is rejected by the positional rename rather than parsed using
its first six columns. -/
theorem parse_columns_counterexample :
    6 ≤ (["h1", "h2", "h3", "h4", "h5", "h6", "h7"] : List String).length
  ∧ parseOk (parseTable rawSeven) = false := by decide

/-- A raw sheet whose header row has exactly six columns. -/
def rawSix : List (List String) :=
  [[], [], [], [], [], [],
   ["h1", "h2", "h3", "h4", "h5", "h6"],
   ["A", "5", "AAA", "US", "X", "Corporate Bonds"]]

/-- Witness for the amended parse claim at concrete inputs. -/
theorem parse_columns_witness :
    parseOk (renameColumns 5 []) = false
  ∧ parseOk (parseTable rawSix) = true := by
  have h := parse_columns_spec 5 [] rawSix ["h1", "h2", "h3", "h4", "h5", "h6"]
    [["A", "5", "AAA", "US", "X", "Corporate Bonds"]] (by decide)
  exact ⟨h.1 (by decide), h.2.2.mpr (by decide)⟩

/-! ### Witness tables and witnesses -/

/-- An eleven-record table with distinct present weights 0..10 and eleven
distinct issuers: more qualifying rows and issuer groups than the top-10
cut keeps. -/
def k11 : List CRecord :=
  [⟨"S0", some 0, "R", "C", "IA", "Corporate Bonds"⟩,
   ⟨"S1", some 1, "R", "C", "IB", "Corporate Bonds"⟩,
   ⟨"S2", some 2, "R", "C", "IC", "Corporate Bonds"⟩,
   ⟨"S3", some 3, "R", "C", "ID", "Corporate Bonds"⟩,
   ⟨"S4", some 4, "R", "C", "IE", "Corporate Bonds"⟩,
   ⟨"S5", some 5, "R", "C", "IF", "Corporate Bonds"⟩,
   ⟨"S6", some 6, "R", "C", "IG", "Corporate Bonds"⟩,
   ⟨"S7", some 7, "R", "C", "IH", "Corporate Bonds"⟩,
   ⟨"S8", some 8, "R", "C", "II", "Corporate Bonds"⟩,
   ⟨"S9", some 9, "R", "C", "IJ", "Corporate Bonds"⟩,
   ⟨"S10", some 10, "R", "C", "IK", "Corporate Bonds"⟩]

/-- Witness for the filter claim at the scenario input. -/
theorem filterCorporate_spec_witness :
    rowA ∈ filterCorporate scenarioRows
  ∧ (filterCorporate scenarioRows).count rowA = scenarioRows.count rowA := by
  refine ⟨?_, (filterCorporate_spec scenarioRows).2.2 rowA (by decide)⟩
  exact ((filterCorporate_spec scenarioRows).2.1 rowA).mpr
    ⟨by decide, by decide⟩

/-- Witness for the top-holdings claim: on the eleven-row table the
excluded lightest row is bounded by a kept row, and on the scenario table
every qualifying row is kept. -/
theorem topHoldings_spec_witness :
    ((0 : ℚ) ≤ 10)
  ∧ (0, (5 : ℚ),
      (⟨"A", some 5, "AAA", "US", "X", "Corporate Bonds"⟩ : CRecord))
        ∈ topHoldingsRows scenF := by
  constructor
  · exact (topHoldings_spec k11).2.2.2.2.1
      (0, 0, ⟨"S0", some 0, "R", "C", "IA", "Corporate Bonds"⟩)
      (by decide) (by decide)
      (10, 10, ⟨"S10", some 10, "R", "C", "IK", "Corporate Bonds"⟩)
      (by decide)
  · exact (topHoldings_spec scenF).2.2.2.2.2 (by decide) _ (by decide)

/-- The per-issuer sums of the eleven-record table, one group per issuer. -/
theorem k11_groupSums :
    groupSums (fun r => r.issuer) k11 =
      [("IA", 0), ("IB", 1), ("IC", 2), ("ID", 3), ("IE", 4), ("IF", 5),
       ("IG", 6), ("IH", 7), ("II", 8), ("IJ", 9), ("IK", 10)] := by
  simp [groupSums, groupKeys, groupWeightSum, k11, List.insertionSort,
    List.orderedInsert, List.dedup, strLe, lexLe]

/-- The top issuers of the eleven-record table: the lightest group `IA` is
cut, the remaining ten are listed ascending. -/
theorem k11_topIssuers :
    topIssuers k11 =
      [("IB", 1), ("IC", 2), ("ID", 3), ("IE", 4), ("IF", 5), ("IG", 6),
       ("IH", 7), ("II", 8), ("IJ", 9), ("IK", 10)] := by
  simp [topIssuers, topIssuersCut, issuersDesc, groupSums, groupKeys,
    groupWeightSum, k11, List.insertionSort, List.orderedInsert,
    List.dedup, valAsc, valDesc, strLe, lexLe]
  norm_num

/-- Witness for the top-issuers claim: on the eleven-issuer table the cut
group `IA` is bounded by the kept group `IK`. -/
theorem topIssuers_spec_witness :
    (topIssuers k11).length ≤ 10 ∧ (0 : ℚ) ≤ 10 := by
  refine ⟨(topIssuers_spec k11).1, ?_⟩
  refine (topIssuers_spec k11).2.2.2 ("IA", 0) ?_ ?_ ("IK", 10) ?_
  · rw [k11_groupSums]; decide
  · rw [k11_topIssuers]; decide
  · rw [k11_topIssuers]; decide

/-- Witness for the group-keys claim: the all-absent groups `DE` and `BBB`
of the scenario appear with sum 0. -/
theorem exposure_keys_spec_witness :
    ("DE", (0 : ℚ)) ∈ countryExposure scenF
  ∧ ("BBB", (0 : ℚ)) ∈ ratingExposure scenF := by
  refine ⟨?_, ?_⟩
  · exact (exposure_keys_spec scenF).2.2.2.1 "DE" (by decide) (by decide)
  · exact (exposure_keys_spec scenF).2.2.2.2.2.2.2 "BBB" (by decide)
      (by decide)

/-- Witness for the coercion-failure claim at the scenario's record B. -/
theorem coercion_failure_spec_witness :
    (coerceWeights scenarioRows).length = scenarioRows.length
  ∧ (coerceWeights scenarioRows)[1]?
      = some ⟨"B", none, "BBB", "DE", "Y", "Corporate Bonds"⟩ := by
  have h := coercion_failure_spec scenarioRows 1 rowB (by decide) (by decide)
  exact ⟨h.1, h.2.1⟩

/-- Witness for the empty-filter claim at a one-row non-corporate table. -/
theorem empty_filter_spec_witness :
    process_data [rowC] = ([], [], [], []) :=
  empty_filter_spec [rowC] (by decide)

/-- Witness for determinism at the scenario input. -/
theorem process_data_deterministic_witness :
    process_data scenarioRows = process_data scenarioRows :=
  process_data_deterministic scenarioRows scenarioRows rfl
